import Mathlib

/-!
Shallow embedding of `src/gpflow/conditionals/mo_sample_conditionals.py`:
the `_sample_conditional` variant registered for
`(object, MixedKernelSharedMof, SeparateMixedMok, object)`, together with the
collaborators it uses.  The dispatch registry, `sample_mvn` and
`mix_latent_gp` live elsewhere in the repository; they are modelled from the
specification's collaborator contracts.  The process-wide logger is a
diagnostic side effect and is not modelled.  Tensors are embedded as nested
lists of rationals (exact arithmetic in place of floats); the external
random draws `eps` are an explicit argument.
-/

namespace GPflowSpec

/-- Runtime type tags of the feature / kernel class hierarchy relevant to this
fragment.  `object` is the top type (the generic wildcard in dispatch
patterns); `other n` stands for arbitrary further concrete types. -/
inductive TypeTag where
  | object
  | mixedKernelSharedMof
  | separateIndependentMof
  | separateMixedMok
  | separateIndependentMok
  | other (n : Nat)
deriving DecidableEq

/-- A dispatch pattern: one type tag per positional argument
`(Xnew, feat, kern, f)`. -/
structure Pattern where
  t1 : TypeTag
  t2 : TypeTag
  t3 : TypeTag
  t4 : TypeTag
deriving DecidableEq

/-- Modelled from the spec: a pattern slot matches a concrete type when it is
the generic wildcard (`object`, the top of the hierarchy) or the type
itself. -/
def slotMatches (pat c : TypeTag) : Bool :=
  pat == TypeTag.object || pat == c

/-- Modelled from the spec: a registered pattern matches a concrete type tuple
when every slot matches. -/
def patMatches (p c : Pattern) : Bool :=
  slotMatches p.t1 c.t1 && slotMatches p.t2 c.t2 &&
    slotMatches p.t3 c.t3 && slotMatches p.t4 c.t4

/-- Modelled from the spec: specificity of a pattern.  An exact type in a slot
outranks a wildcard, and the leftmost slot breaks ties, which is exactly a
lexicographic weighting of the four slots. -/
def patScore (p : Pattern) : Nat :=
  (if p.t1 == TypeTag.object then 0 else 8) +
    (if p.t2 == TypeTag.object then 0 else 4) +
    (if p.t3 == TypeTag.object then 0 else 2) +
    (if p.t4 == TypeTag.object then 0 else 1)

/-- Modelled from the spec: the Dispatch Registry's `dispatch` operation.
Among the registered entries whose pattern matches the concrete type tuple it
returns the most specific one (first registered wins among equals); `none`
models the `DispatchError` case of no matching entry. -/
def dispatch {α : Type} (reg : List (Pattern × α)) (c : Pattern) : Option α :=
  ((reg.filter fun e => patMatches e.1 c).foldl
    (fun best e =>
      match best with
      | none => some e
      | some b => if patScore b.1 < patScore e.1 then some e else some b)
    none).map fun e => e.2

/-- A rank-2 tensor `[rows, cols]` of exact scalars. -/
abbrev Tensor2 := List (List ℚ)

/-- Entry of a rank-2 tensor at row `n`, column `p` (0 outside the shape). -/
def entry2 (t : Tensor2) (n p : Nat) : ℚ :=
  (t.getD n []).getD p 0

/-- `t` has shape `[n, p]`. -/
def hasShape2 (t : Tensor2) (n p : Nat) : Bool :=
  t.length == n && t.all fun row => row.length == p

/-- Dot product of two equally long vectors. -/
def dot (xs ys : List ℚ) : ℚ :=
  (List.zipWith (fun a b => a * b) xs ys).sum

/-- A sample tensor: `[N, L]` without the optional leading sample axis, or a
list of `S` such planes when the leading axis is present. -/
inductive SampleT where
  | noS (t : Tensor2)
  | withS (ts : List Tensor2)
deriving DecidableEq

/-- External standard-normal draws: `eps s n l` is the draw for sample `s`,
row `n`, latent `l`. -/
def Eps := Nat → Nat → Nat → ℚ

/-- Modelled from the spec: one reparameterized draw,
`sample[n, l] = mu[n, l] + sqrt(var[n, l]) * eps[n, l]`, taken per element
(the "diag" covariance structure).  `Rat.sqrt` stands for the real square
root; it is exact on the perfect squares used in concrete instances. -/
def diagDraw (mu var : Tensor2) (e : Nat → Nat → ℚ) : Tensor2 :=
  (List.range mu.length).map fun n =>
    (List.range ((mu.getD n []).length)).map fun l =>
      (mu.getD n []).getD l 0 + Rat.sqrt ((var.getD n []).getD l 0) * e n l

/-- The Cholesky-based full-covariance sampling algorithm: external to this
fragment, hence abstracted as a parameter. -/
def FullMvnImpl := Tensor2 → Tensor2 → Option Nat → Eps → SampleT

/-- The covariance-structure tag accepted by `sample_mvn`:
`diag` or `full`. -/
inductive CovTag where
  | diag
  | full
deriving DecidableEq

/-- Modelled from the spec: `sample_mvn(mu, var, cov_structure, num_samples)`.
The `diag` tag applies the per-element reparameterization, replicated
`num_samples` times along a new leading axis when requested; the `full` tag
selects the Cholesky-based algorithm (external, abstracted as `fullImpl`). -/
def sample_mvn (fullImpl : FullMvnImpl) (mu var : Tensor2) (cov_structure : CovTag)
    (num_samples : Option Nat) (eps : Eps) : SampleT :=
  match cov_structure with
  | CovTag.diag =>
    match num_samples with
    | none => SampleT.noS (diagDraw mu var (eps 0))
    | some S => SampleT.withS ((List.range S).map fun s => diagDraw mu var (eps s))
  | CovTag.full => fullImpl mu var num_samples eps

/-- Contraction of the last axis of `g : [..., L]` with the last axis of
`W : [P, L]`: `result[n, p] = dot (g[n]) (W[p])`.  This is
`tf.tensordot(g, W, [[-1], [-1]])` on a rank-2 operand, and equally the
matrix product `g @ Wᵗ`. -/
def contractW (g W : Tensor2) : Tensor2 :=
  g.map fun row => W.map fun wrow => dot row wrow

/-- Modelled from the spec: `mix_latent_gp(W, mu, var, full_cov,
full_output_cov)` in its diag mode: `f_mu = mu @ Wᵗ` and
`f_var[n, p] = Σ_l W[p, l]^2 * var[n, l]`.  The full-covariance modes return
higher-rank moments, belong to other variants, and are never reached from
this fragment (which raises before calling when either flag is set), so only
the diag mode is modelled; the flags are accepted per the documented
signature. -/
def mix_latent_gp (W mu var : Tensor2) (full_cov full_output_cov : Bool) :
    Tensor2 × Tensor2 :=
  (contractW mu W,
    var.map fun vrow => W.map fun wrow => dot (wrow.map fun w => w * w) vrow)

/-- `tf.tensordot(g_sample, W, [[-1], [-1]])` applied to a sample tensor:
the contraction acts on each `[N, L]` plane, leaving any leading sample axis
in place. -/
def tensordot_last (s : SampleT) (W : Tensor2) : SampleT :=
  match s with
  | SampleT.noS t => SampleT.noS (contractW t W)
  | SampleT.withS ts => SampleT.withS (ts.map fun t => contractW t W)

/-- An opaque argument value (`Xnew`, `feat`, `f`, or a `q_sqrt` payload):
a runtime type tag plus an identity. -/
structure Arg where
  tag : TypeTag
  val : Nat
deriving DecidableEq

/-- A kernel value: its runtime type tag and the mixing matrix `W : [P, L]`
owned by the `SeparateMixedMok` variant. -/
structure Kern where
  tag : TypeTag
  W : Tensor2
deriving DecidableEq

/-- An implementation of the `conditional` operation:
`(Xnew, feat, kern, f, white, q_sqrt) -> (mu, var)`. -/
def CondImpl := Arg → Arg → Kern → Arg → Bool → Option Arg → Tensor2 × Tensor2

/-- The registry of `conditional` implementations. -/
def CondRegistry := List (Pattern × CondImpl)

/-- The constant type tuple of line 30:
`(object, SeparateIndependentMof, SeparateIndependentMok, object)`. -/
def sepIndCondPattern : Pattern :=
  ⟨TypeTag.object, TypeTag.separateIndependentMof,
    TypeTag.separateIndependentMok, TypeTag.object⟩

/-- The pattern the variant itself is registered under (line 12):
`(object, MixedKernelSharedMof, SeparateMixedMok, object)`. -/
def mixedSampleCondPattern : Pattern :=
  ⟨TypeTag.object, TypeTag.mixedKernelSharedMof,
    TypeTag.separateMixedMok, TypeTag.object⟩

/-- The all-wildcard pattern `(object, object, object, object)`. -/
def wildcardPattern : Pattern :=
  ⟨TypeTag.object, TypeTag.object, TypeTag.object, TypeTag.object⟩

/-- Line 30: `conditional.dispatch(object, SeparateIndependentMof,
SeparateIndependentMok, object)`.  The call-site arguments are in scope but
unused in the lookup, mirroring the source. -/
def innerImpl (reg : CondRegistry) (Xnew feat : Arg) (kern : Kern) (f : Arg) :
    Option CondImpl :=
  dispatch reg sepIndCondPattern

/-- The errors this fragment can surface: `NotImplementedError` with its
message, and the registry's no-match failure. -/
inductive GPError where
  | notImplementedError (msg : String)
  | dispatchError
deriving DecidableEq

/-- The embedded `_sample_conditional` variant (lines 13-36).  The external
collaborators — the `conditional` registry `reg`, the Cholesky sampler
`fullImpl`, the random draws `eps` — are explicit parameters; the remaining
parameters and the body follow the source line by line. -/
def _sample_conditional (reg : CondRegistry) (fullImpl : FullMvnImpl) (eps : Eps)
    (Xnew feat : Arg) (kern : Kern) (f : Arg)
    (full_cov full_output_cov : Bool) (q_sqrt : Option Arg) (white : Bool)
    (num_samples : Option Nat) :
    Except GPError (SampleT × Tensor2 × Tensor2) :=
  if full_cov then
    Except.error (GPError.notImplementedError "full_cov not yet implemented")
  else if full_output_cov then
    Except.error (GPError.notImplementedError "full_output_cov not yet implemented")
  else
    match innerImpl reg Xnew feat kern f with
    | none => Except.error GPError.dispatchError
    | some ind_conditional =>
      let gmv := ind_conditional Xnew feat kern f white q_sqrt
      let g_mu := gmv.1
      let g_var := gmv.2
      let g_sample := sample_mvn fullImpl g_mu g_var CovTag.diag num_samples eps
      let fmv := mix_latent_gp kern.W g_mu g_var full_cov full_output_cov
      let f_sample := tensordot_last g_sample kern.W
      Except.ok (f_sample, fmv.1, fmv.2)

/-- `s` has shape `[(S,) n, p]` with the leading `S` axis present iff
`ns` is not `none`, in which case its extent is the requested count. -/
def sampleHasShape (s : SampleT) (ns : Option Nat) (n p : Nat) : Bool :=
  match s, ns with
  | SampleT.noS t, none => hasShape2 t n p
  | SampleT.withS ts, some S =>
    ts.length == S && ts.all fun t => hasShape2 t n p
  | _, _ => false

/-- `F` and `G` are rank-2 planes related throughout the shapes `[N, P]` /
`[N, L]` by the contraction `F[n, p] = Σ_l G[n, l] * W[p, l]` along the
latent axis. -/
def contractedEntries (F G W : Tensor2) (N P L : Nat) : Prop :=
  ∀ n, n < N → ∀ p, p < P →
    entry2 F n p = ∑ l ∈ Finset.range L, entry2 G n l * entry2 W p l

/-- The sample `FS` is, plane by plane under any leading sample axis, the
contraction of `GS` with `W` along the latent axis. -/
def sampleContracted (FS GS : SampleT) (W : Tensor2) (N P L : Nat) : Prop :=
  match FS, GS with
  | SampleT.noS F, SampleT.noS G => contractedEntries F G W N P L
  | SampleT.withS Fs, SampleT.withS Gs =>
    Fs.length = Gs.length ∧
      ∀ i, i < Fs.length →
        contractedEntries (Fs.getD i []) (Gs.getD i []) W N P L
  | _, _ => False

/-- A concrete inner `conditional` implementation for concrete instances:
constant moments of shape `[3, 2]` with perfect-square variances. -/
def impl0 : CondImpl := fun _ _ _ _ _ _ =>
  ([[1, 2], [3, 4], [5, 6]], [[1, 0], [4, 1], [9, 4]])

/-- A concrete `conditional` registry holding `impl0` under the
separate-independent pattern. -/
def reg0 : CondRegistry := [(sepIndCondPattern, impl0)]

/-- Concrete random draws. -/
def eps0 : Eps := fun s n l => (s : ℚ) + n + l

/-- Concrete full-covariance sampler (never consulted on the diag path). -/
def fullImpl0 : FullMvnImpl := fun _ _ _ _ => SampleT.noS []

/-- Concrete query points argument. -/
def Xnew0 : Arg := ⟨TypeTag.other 0, 0⟩

/-- Concrete feature-representation argument. -/
def feat0 : Arg := ⟨TypeTag.mixedKernelSharedMof, 1⟩

/-- Concrete inducing-value argument. -/
def f0 : Arg := ⟨TypeTag.other 1, 2⟩

/-- Concrete kernel with the `2 × 2` identity mixing matrix. -/
def kern0 : Kern := ⟨TypeTag.separateMixedMok, [[1, 0], [0, 1]]⟩

/-- Concrete kernel with a `3 × 2` mixing matrix (`P = 3`, `L = 2`). -/
def kern1 : Kern := ⟨TypeTag.separateMixedMok, [[1, 2], [3, 4], [5, 6]]⟩

theorem hasShape2_iff (t : Tensor2) (n p : Nat) :
    hasShape2 t n p = true ↔ t.length = n ∧ ∀ row ∈ t, row.length = p := by
  simp [hasShape2, List.all_eq_true]

theorem length_diagDraw (mu var : Tensor2) (e : Nat → Nat → ℚ) :
    (diagDraw mu var e).length = mu.length := by
  simp [diagDraw]

theorem diagDraw_shape (mu var : Tensor2) (e : Nat → Nat → ℚ) (N L : Nat)
    (h : hasShape2 mu N L = true) : hasShape2 (diagDraw mu var e) N L = true := by
  rw [hasShape2_iff] at h ⊢
  obtain ⟨hlen, hrow⟩ := h
  refine ⟨by simp [diagDraw, hlen], ?_⟩
  intro row hr
  simp only [diagDraw, List.mem_map, List.mem_range] at hr
  obtain ⟨n, hn, rfl⟩ := hr
  have hmem : mu.getD n [] ∈ mu := by
    rw [List.getD_eq_getElem mu [] (by omega)]
    exact List.getElem_mem (by omega)
  simp only [List.length_map, List.length_range]
  exact hrow _ hmem

theorem length_contractW (g W : Tensor2) : (contractW g W).length = g.length := by
  simp [contractW]

theorem contractW_shape (g W : Tensor2) (N P : Nat) (hg : g.length = N)
    (hW : W.length = P) : hasShape2 (contractW g W) N P = true := by
  rw [hasShape2_iff]
  refine ⟨by simp [contractW, hg], ?_⟩
  intro row hr
  simp only [contractW, List.mem_map] at hr
  obtain ⟨r, hmem, rfl⟩ := hr
  simp [hW]

theorem dot_eq_sum (xs ys : List ℚ) (h : xs.length = ys.length) :
    dot xs ys = ∑ l ∈ Finset.range xs.length, xs.getD l 0 * ys.getD l 0 := by
  induction xs generalizing ys with
  | nil => simp [dot]
  | cons a as ih =>
    cases ys with
    | nil => simp at h
    | cons b bs =>
      have h' : as.length = bs.length := by simpa using h
      have hd := ih bs h'
      simp only [dot, List.zipWith_cons_cons, List.sum_cons] at hd ⊢
      rw [List.length_cons, Finset.sum_range_succ']
      simp only [List.getD_cons_succ, List.getD_cons_zero]
      rw [← hd]
      ring

theorem contractW_entry (G W : Tensor2) (L n p : Nat)
    (hn : n < G.length) (hp : p < W.length)
    (hrow : (G.getD n []).length = L) (hwrow : (W.getD p []).length = L) :
    entry2 (contractW G W) n p
      = ∑ l ∈ Finset.range L, entry2 G n l * entry2 W p l := by
  unfold entry2 contractW
  rw [List.getD_eq_getElem _ [] (by simpa using hn), List.getElem_map,
    List.getD_eq_getElem _ 0 (by simpa using hp), List.getElem_map]
  rw [List.getD_eq_getElem G [] hn] at hrow
  rw [List.getD_eq_getElem W [] hp] at hwrow
  rw [dot_eq_sum _ _ (by rw [hrow, hwrow]), hrow]
  refine Finset.sum_congr rfl fun l hl => ?_
  rw [List.getD_eq_getElem G [] hn, List.getD_eq_getElem W [] hp]

/-- Unfolding of the happy path (`full_cov = full_output_cov = False`) once
the inner `conditional` implementation resolves. -/
theorem happy_unfold (reg : CondRegistry) (fullImpl : FullMvnImpl) (eps : Eps)
    (Xnew feat : Arg) (kern : Kern) (f : Arg) (q_sqrt : Option Arg)
    (white : Bool) (num_samples : Option Nat) (impl : CondImpl)
    (himpl : dispatch reg sepIndCondPattern = some impl) :
    _sample_conditional reg fullImpl eps Xnew feat kern f false false q_sqrt
        white num_samples
      = Except.ok
        (tensordot_last
          (sample_mvn fullImpl (impl Xnew feat kern f white q_sqrt).1
            (impl Xnew feat kern f white q_sqrt).2 CovTag.diag num_samples eps)
          kern.W,
        (mix_latent_gp kern.W (impl Xnew feat kern f white q_sqrt).1
          (impl Xnew feat kern f white q_sqrt).2 false false).1,
        (mix_latent_gp kern.W (impl Xnew feat kern f white q_sqrt).1
          (impl Xnew feat kern f white q_sqrt).2 false false).2) := by
  simp [_sample_conditional, innerImpl, himpl]

theorem contractedEntries_contractW (G W : Tensor2) (N P L : Nat)
    (hG : hasShape2 G N L = true) (hW : hasShape2 W P L = true) :
    contractedEntries (contractW G W) G W N P L := by
  rw [hasShape2_iff] at hG hW
  intro n hn p hp
  have hn' : n < G.length := by rw [hG.1]; exact hn
  have hp' : p < W.length := by rw [hW.1]; exact hp
  apply contractW_entry G W L n p hn' hp'
  · rw [List.getD_eq_getElem G [] hn']
    exact hG.2 _ (List.getElem_mem hn')
  · rw [List.getD_eq_getElem W [] hp']
    exact hW.2 _ (List.getElem_mem hp')

theorem sampleContracted_tensordot (gm gv : Tensor2) (fullImpl : FullMvnImpl)
    (eps : Eps) (ns : Option Nat) (W : Tensor2) (N P L : Nat)
    (hg : hasShape2 gm N L = true) (hW : hasShape2 W P L = true) :
    sampleContracted
      (tensordot_last (sample_mvn fullImpl gm gv CovTag.diag ns eps) W)
      (sample_mvn fullImpl gm gv CovTag.diag ns eps) W N P L := by
  cases ns with
  | none =>
    show contractedEntries (contractW (diagDraw gm gv (eps 0)) W)
      (diagDraw gm gv (eps 0)) W N P L
    exact contractedEntries_contractW _ _ _ _ _
      (diagDraw_shape gm gv (eps 0) N L hg) hW
  | some S =>
    show (List.map _ _).length = (List.map _ _).length ∧ _
    refine ⟨by simp, ?_⟩
    intro i hi
    simp only [List.length_map, List.length_range] at hi
    have hi1 : i < (((List.range S).map fun s => diagDraw gm gv (eps s)).map
        fun t => contractW t W).length := by simp [hi]
    have hi2 : i < ((List.range S).map fun s => diagDraw gm gv (eps s)).length := by
      simp [hi]
    rw [List.getD_eq_getElem _ [] hi1, List.getD_eq_getElem _ [] hi2]
    simp only [List.getElem_map]
    exact contractedEntries_contractW _ _ _ _ _
      (diagDraw_shape gm gv _ N L hg) hW

/-- Claim C1: calling the separate-mixed `sample_conditional` variant with
`full_cov=True` or `full_output_cov=True` raises the `NotImplementedError`
before any computation — the result is that error, and it is independent of
the `conditional` registry, the full-covariance sampler and the random draws,
so the inner sub-dispatch is never consulted, no sample is drawn and no
mixing is performed. -/
theorem sample_conditional_rejects_cov_flags
    (reg reg' : CondRegistry) (fullImpl fullImpl' : FullMvnImpl) (eps eps' : Eps)
    (Xnew feat : Arg) (kern : Kern) (f : Arg)
    (full_cov full_output_cov : Bool) (q_sqrt : Option Arg) (white : Bool)
    (num_samples : Option Nat)
    (h : full_cov = true ∨ full_output_cov = true) :
    (∃ msg, _sample_conditional reg fullImpl eps Xnew feat kern f full_cov
        full_output_cov q_sqrt white num_samples
      = Except.error (GPError.notImplementedError msg))
    ∧ _sample_conditional reg fullImpl eps Xnew feat kern f full_cov
        full_output_cov q_sqrt white num_samples
      = _sample_conditional reg' fullImpl' eps' Xnew feat kern f full_cov
        full_output_cov q_sqrt white num_samples := by
  rcases h with h | h
  · subst h
    exact ⟨⟨"full_cov not yet implemented", rfl⟩, rfl⟩
  · subst h
    cases full_cov
    · exact ⟨⟨"full_output_cov not yet implemented", rfl⟩, rfl⟩
    · exact ⟨⟨"full_cov not yet implemented", rfl⟩, rfl⟩

/-- Witness for C1 at a concrete call with `full_cov=true`. -/
theorem sample_conditional_rejects_cov_flags_witness :
    (true = true ∨ false = true)
    ∧ ((∃ msg, _sample_conditional [] (fun _ _ _ _ => SampleT.noS [])
          (fun _ _ _ => 0) ⟨TypeTag.other 0, 0⟩ ⟨TypeTag.mixedKernelSharedMof, 1⟩
          ⟨TypeTag.separateMixedMok, [[1]]⟩ ⟨TypeTag.other 1, 2⟩ true false none
          false none
        = Except.error (GPError.notImplementedError msg))
      ∧ _sample_conditional [] (fun _ _ _ _ => SampleT.noS [])
          (fun _ _ _ => 0) ⟨TypeTag.other 0, 0⟩ ⟨TypeTag.mixedKernelSharedMof, 1⟩
          ⟨TypeTag.separateMixedMok, [[1]]⟩ ⟨TypeTag.other 1, 2⟩ true false none
          false none
        = _sample_conditional [(wildcardPattern, fun _ _ _ _ _ _ => ([], []))]
          (fun _ _ _ _ => SampleT.withS []) (fun _ _ _ => 1) ⟨TypeTag.other 0, 0⟩
          ⟨TypeTag.mixedKernelSharedMof, 1⟩ ⟨TypeTag.separateMixedMok, [[1]]⟩
          ⟨TypeTag.other 1, 2⟩ true false none false none) :=
  ⟨Or.inl rfl,
    sample_conditional_rejects_cov_flags [] [(wildcardPattern, fun _ _ _ _ _ _ => ([], []))]
      (fun _ _ _ _ => SampleT.noS []) (fun _ _ _ _ => SampleT.withS [])
      (fun _ _ _ => 0) (fun _ _ _ => 1) ⟨TypeTag.other 0, 0⟩
      ⟨TypeTag.mixedKernelSharedMof, 1⟩ ⟨TypeTag.separateMixedMok, [[1]]⟩
      ⟨TypeTag.other 1, 2⟩ true false none false none (Or.inl rfl)⟩

/-- Claim C8: dispatch resolution is most-specific-match.  With the pattern
`(object, SeparateIndependentMof, SeparateIndependentMok, object)` and the
all-wildcard pattern both registered for the same operation — in either
order — a dispatch call whose feature and kernel slots match the specific
pattern selects the specific implementation, for any types in the wildcard
slots: an exact-type match in a slot outranks a wildcard match. -/
theorem dispatch_specific_beats_wildcard (a b : CondImpl) (t1 t4 : TypeTag) :
    dispatch [(sepIndCondPattern, a), (wildcardPattern, b)]
        ⟨t1, TypeTag.separateIndependentMof, TypeTag.separateIndependentMok, t4⟩
      = some a
    ∧ dispatch [(wildcardPattern, b), (sepIndCondPattern, a)]
        ⟨t1, TypeTag.separateIndependentMof, TypeTag.separateIndependentMok, t4⟩
      = some a :=
  ⟨rfl, rfl⟩

/-- Claim C9: when both `full_cov=True` and `full_output_cov=True` are
supplied, the `full_cov` rejection wins: the error raised is
`NotImplementedError("full_cov not yet implemented")`, because `full_cov`
is checked first. -/
theorem sample_conditional_full_cov_checked_first
    (reg : CondRegistry) (fullImpl : FullMvnImpl) (eps : Eps)
    (Xnew feat : Arg) (kern : Kern) (f : Arg) (q_sqrt : Option Arg)
    (white : Bool) (num_samples : Option Nat) :
    _sample_conditional reg fullImpl eps Xnew feat kern f true true q_sqrt
        white num_samples
      = Except.error (GPError.notImplementedError "full_cov not yet implemented") :=
  rfl

/-- Claim C10: the inner conditional-moments implementation is resolved from
the fixed type tuple `(object, SeparateIndependentMof, SeparateIndependentMok,
object)`: the selection is the same for any runtime arguments `Xnew`, `feat`,
`kern`, `f`, and that tuple differs in the feature and kernel slots from the
pattern the variant itself is registered under. -/
theorem inner_conditional_fixed_pattern
    (reg : CondRegistry) (Xnew feat : Arg) (kern : Kern) (f : Arg)
    (Xnew' feat' : Arg) (kern' : Kern) (f' : Arg) :
    innerImpl reg Xnew feat kern f = innerImpl reg Xnew' feat' kern' f'
    ∧ innerImpl reg Xnew feat kern f = dispatch reg sepIndCondPattern
    ∧ sepIndCondPattern.t2 ≠ mixedSampleCondPattern.t2
    ∧ sepIndCondPattern.t3 ≠ mixedSampleCondPattern.t3 :=
  ⟨rfl, rfl, by decide, by decide⟩

/-- Claim C4: on the happy path the per-latent moments are obtained by
resolving the conditional-moments implementation through the Dispatch
Registry at `(object, SeparateIndependentMof, SeparateIndependentMok,
object)` and invoking it on `(Xnew, feat, kern, f)` with the caller's
`white` and `q_sqrt` passed through unchanged; the remainder of the
computation consumes exactly that output. -/
theorem sample_conditional_resolves_inner_moments
    (reg : CondRegistry) (fullImpl : FullMvnImpl) (eps : Eps)
    (Xnew feat : Arg) (kern : Kern) (f : Arg) (q_sqrt : Option Arg)
    (white : Bool) (num_samples : Option Nat) (impl : CondImpl)
    (himpl : dispatch reg sepIndCondPattern = some impl) :
    _sample_conditional reg fullImpl eps Xnew feat kern f false false q_sqrt
        white num_samples
      = Except.ok
        (tensordot_last
          (sample_mvn fullImpl (impl Xnew feat kern f white q_sqrt).1
            (impl Xnew feat kern f white q_sqrt).2 CovTag.diag num_samples eps)
          kern.W,
        (mix_latent_gp kern.W (impl Xnew feat kern f white q_sqrt).1
          (impl Xnew feat kern f white q_sqrt).2 false false).1,
        (mix_latent_gp kern.W (impl Xnew feat kern f white q_sqrt).1
          (impl Xnew feat kern f white q_sqrt).2 false false).2) :=
  happy_unfold reg fullImpl eps Xnew feat kern f q_sqrt white num_samples impl himpl

/-- Witness for C4 at a concrete registry and call. -/
theorem sample_conditional_resolves_inner_moments_witness :
    dispatch reg0 sepIndCondPattern = some impl0
    ∧ _sample_conditional reg0 fullImpl0 eps0 Xnew0 feat0 kern1 f0 false false
        none false none
      = Except.ok
        (tensordot_last
          (sample_mvn fullImpl0 (impl0 Xnew0 feat0 kern1 f0 false none).1
            (impl0 Xnew0 feat0 kern1 f0 false none).2 CovTag.diag none eps0)
          kern1.W,
        (mix_latent_gp kern1.W (impl0 Xnew0 feat0 kern1 f0 false none).1
          (impl0 Xnew0 feat0 kern1 f0 false none).2 false false).1,
        (mix_latent_gp kern1.W (impl0 Xnew0 feat0 kern1 f0 false none).1
          (impl0 Xnew0 feat0 kern1 f0 false none).2 false false).2) :=
  ⟨rfl, sample_conditional_resolves_inner_moments reg0 fullImpl0 eps0 Xnew0
    feat0 kern1 f0 none false none impl0 rfl⟩

/-- Claim C5: on the happy path the latent sample is drawn by `sample_mvn`
on `(g_mu, g_var)` with the `diag` covariance-structure tag and the caller's
`num_samples` forwarded unchanged, and the result does not depend on the
Cholesky-based full-covariance sampler — that path is never exercised. -/
theorem sample_conditional_draws_diag_sample
    (reg : CondRegistry) (fullImpl : FullMvnImpl) (eps : Eps)
    (Xnew feat : Arg) (kern : Kern) (f : Arg) (q_sqrt : Option Arg)
    (white : Bool) (num_samples : Option Nat) (impl : CondImpl)
    (himpl : dispatch reg sepIndCondPattern = some impl) :
    (∃ fmu fvar, _sample_conditional reg fullImpl eps Xnew feat kern f false
        false q_sqrt white num_samples
      = Except.ok
        (tensordot_last
          (sample_mvn fullImpl (impl Xnew feat kern f white q_sqrt).1
            (impl Xnew feat kern f white q_sqrt).2 CovTag.diag num_samples eps)
          kern.W, fmu, fvar))
    ∧ ∀ fullImpl' : FullMvnImpl,
        _sample_conditional reg fullImpl eps Xnew feat kern f false false
          q_sqrt white num_samples
        = _sample_conditional reg fullImpl' eps Xnew feat kern f false false
          q_sqrt white num_samples := by
  refine ⟨⟨_, _, happy_unfold reg fullImpl eps Xnew feat kern f q_sqrt white
    num_samples impl himpl⟩, fun fullImpl' => ?_⟩
  rw [happy_unfold reg fullImpl eps Xnew feat kern f q_sqrt white num_samples
    impl himpl, happy_unfold reg fullImpl' eps Xnew feat kern f q_sqrt white
    num_samples impl himpl]
  cases num_samples <;> rfl

/-- Witness for C5 at a concrete registry and call. -/
theorem sample_conditional_draws_diag_sample_witness :
    dispatch reg0 sepIndCondPattern = some impl0
    ∧ ((∃ fmu fvar, _sample_conditional reg0 fullImpl0 eps0 Xnew0 feat0 kern1
          f0 false false none false (some 2)
        = Except.ok
          (tensordot_last
            (sample_mvn fullImpl0 (impl0 Xnew0 feat0 kern1 f0 false none).1
              (impl0 Xnew0 feat0 kern1 f0 false none).2 CovTag.diag (some 2) eps0)
            kern1.W, fmu, fvar))
      ∧ ∀ fullImpl' : FullMvnImpl,
          _sample_conditional reg0 fullImpl0 eps0 Xnew0 feat0 kern1 f0 false
            false none false (some 2)
          = _sample_conditional reg0 fullImpl' eps0 Xnew0 feat0 kern1 f0 false
            false none false (some 2)) :=
  ⟨rfl, sample_conditional_draws_diag_sample reg0 fullImpl0 eps0 Xnew0 feat0
    kern1 f0 none false (some 2) impl0 rfl⟩

/-- Claim C2: for every happy-path call the returned output sample is the
contraction of the latent sample with the kernel's mixing matrix `W` along
the latent axis: plane by plane,
`f_sample[n, p] = Σ_l g_sample[n, l] * W[p, l]`. -/
theorem sample_conditional_sample_is_contraction
    (reg : CondRegistry) (fullImpl : FullMvnImpl) (eps : Eps)
    (Xnew feat : Arg) (kern : Kern) (f : Arg) (q_sqrt : Option Arg)
    (white : Bool) (num_samples : Option Nat) (impl : CondImpl) (N L P : Nat)
    (himpl : dispatch reg sepIndCondPattern = some impl)
    (hg : hasShape2 (impl Xnew feat kern f white q_sqrt).1 N L = true)
    (hW : hasShape2 kern.W P L = true) :
    ∃ fmu fvar,
      _sample_conditional reg fullImpl eps Xnew feat kern f false false q_sqrt
          white num_samples
        = Except.ok
          (tensordot_last
            (sample_mvn fullImpl (impl Xnew feat kern f white q_sqrt).1
              (impl Xnew feat kern f white q_sqrt).2 CovTag.diag num_samples eps)
            kern.W, fmu, fvar)
      ∧ sampleContracted
          (tensordot_last
            (sample_mvn fullImpl (impl Xnew feat kern f white q_sqrt).1
              (impl Xnew feat kern f white q_sqrt).2 CovTag.diag num_samples eps)
            kern.W)
          (sample_mvn fullImpl (impl Xnew feat kern f white q_sqrt).1
            (impl Xnew feat kern f white q_sqrt).2 CovTag.diag num_samples eps)
          kern.W N P L :=
  ⟨_, _,
    happy_unfold reg fullImpl eps Xnew feat kern f q_sqrt white num_samples
      impl himpl,
    sampleContracted_tensordot _ _ fullImpl eps num_samples kern.W N P L hg hW⟩

/-- Witness for C2 at a concrete registry and call with two samples. -/
theorem sample_conditional_sample_is_contraction_witness :
    dispatch reg0 sepIndCondPattern = some impl0
    ∧ hasShape2 (impl0 Xnew0 feat0 kern1 f0 false none).1 3 2 = true
    ∧ hasShape2 kern1.W 3 2 = true
    ∧ ∃ fmu fvar,
        _sample_conditional reg0 fullImpl0 eps0 Xnew0 feat0 kern1 f0 false
            false none false (some 2)
          = Except.ok
            (tensordot_last
              (sample_mvn fullImpl0 (impl0 Xnew0 feat0 kern1 f0 false none).1
                (impl0 Xnew0 feat0 kern1 f0 false none).2 CovTag.diag (some 2)
                eps0) kern1.W, fmu, fvar)
        ∧ sampleContracted
            (tensordot_last
              (sample_mvn fullImpl0 (impl0 Xnew0 feat0 kern1 f0 false none).1
                (impl0 Xnew0 feat0 kern1 f0 false none).2 CovTag.diag (some 2)
                eps0) kern1.W)
            (sample_mvn fullImpl0 (impl0 Xnew0 feat0 kern1 f0 false none).1
              (impl0 Xnew0 feat0 kern1 f0 false none).2 CovTag.diag (some 2)
              eps0)
            kern1.W 3 3 2 :=
  ⟨rfl, rfl, rfl,
    sample_conditional_sample_is_contraction reg0 fullImpl0 eps0 Xnew0 feat0
      kern1 f0 none false (some 2) impl0 3 2 3 rfl rfl rfl⟩

/-- Claim C3: for every happy-path call with latent moments of shape
`[N, L]` and mixing matrix of shape `[P, L]`, the returned sample has shape
`[(S,) N, P]`, where the leading `S` axis is present iff `num_samples` is
not `none`, and when present its extent equals `num_samples`. -/
theorem sample_conditional_output_shape
    (reg : CondRegistry) (fullImpl : FullMvnImpl) (eps : Eps)
    (Xnew feat : Arg) (kern : Kern) (f : Arg) (q_sqrt : Option Arg)
    (white : Bool) (num_samples : Option Nat) (impl : CondImpl) (N L P : Nat)
    (himpl : dispatch reg sepIndCondPattern = some impl)
    (hg : hasShape2 (impl Xnew feat kern f white q_sqrt).1 N L = true)
    (hv : hasShape2 (impl Xnew feat kern f white q_sqrt).2 N L = true)
    (hW : hasShape2 kern.W P L = true) :
    ∃ F fmu fvar,
      _sample_conditional reg fullImpl eps Xnew feat kern f false false q_sqrt
          white num_samples
        = Except.ok (F, fmu, fvar)
      ∧ sampleHasShape F num_samples N P = true := by
  refine ⟨_, _, _,
    happy_unfold reg fullImpl eps Xnew feat kern f q_sqrt white num_samples
      impl himpl, ?_⟩
  rw [hasShape2_iff] at hg hW
  cases num_samples with
  | none =>
    show hasShape2 (contractW (diagDraw (impl Xnew feat kern f white q_sqrt).1
      (impl Xnew feat kern f white q_sqrt).2 (eps 0)) kern.W) N P = true
    exact contractW_shape _ _ N P (by rw [length_diagDraw]; exact hg.1) hW.1
  | some S =>
    show (_ && _) = true
    rw [Bool.and_eq_true]
    constructor
    · simp
    · rw [List.all_eq_true]
      intro t ht
      simp only [List.mem_map, List.mem_range] at ht
      obtain ⟨s, ⟨k, hk, rfl⟩, rfl⟩ := ht
      exact contractW_shape _ _ N P (by rw [length_diagDraw]; exact hg.1) hW.1

/-- Witness for C3 at a concrete call with `num_samples = 2`. -/
theorem sample_conditional_output_shape_witness :
    dispatch reg0 sepIndCondPattern = some impl0
    ∧ hasShape2 (impl0 Xnew0 feat0 kern1 f0 false none).1 3 2 = true
    ∧ hasShape2 (impl0 Xnew0 feat0 kern1 f0 false none).2 3 2 = true
    ∧ hasShape2 kern1.W 3 2 = true
    ∧ ∃ F fmu fvar,
        _sample_conditional reg0 fullImpl0 eps0 Xnew0 feat0 kern1 f0 false
            false none false (some 2)
          = Except.ok (F, fmu, fvar)
        ∧ sampleHasShape F (some 2) 3 3 = true :=
  ⟨rfl, rfl, rfl, rfl,
    sample_conditional_output_shape reg0 fullImpl0 eps0 Xnew0 feat0 kern1 f0
      none false (some 2) impl0 3 2 3 rfl rfl rfl rfl⟩

theorem mixVar_entry (W mu var : Tensor2) (fc foc : Bool) (N P L n p : Nat)
    (hvar : hasShape2 var N L = true) (hW : hasShape2 W P L = true)
    (hn : n < N) (hp : p < P) :
    entry2 (mix_latent_gp W mu var fc foc).2 n p
      = ∑ l ∈ Finset.range L,
          entry2 W p l * entry2 W p l * entry2 var n l := by
  rw [hasShape2_iff] at hvar hW
  have hn' : n < var.length := by rw [hvar.1]; exact hn
  have hp' : p < W.length := by rw [hW.1]; exact hp
  have hvl : var[n].length = L := hvar.2 _ (List.getElem_mem hn')
  have hwl : W[p].length = L := hW.2 _ (List.getElem_mem hp')
  simp only [mix_latent_gp, entry2]
  rw [List.getD_eq_getElem _ [] (by simpa using hn'), List.getElem_map,
    List.getD_eq_getElem _ 0 (by simpa using hp'), List.getElem_map]
  rw [dot_eq_sum _ _ (by simp [hwl, hvl]), List.length_map, hwl]
  refine Finset.sum_congr rfl fun l hl => ?_
  rw [Finset.mem_range] at hl
  have hlw : l < W[p].length := by rw [hwl]; exact hl
  rw [List.getD_eq_getElem _ 0 (by simpa using hlw), List.getElem_map]
  rw [List.getD_eq_getElem W [] hp', List.getD_eq_getElem var [] hn']
  rw [List.getD_eq_getElem _ 0 hlw]

/-- Claim C6: every happy-path call returns the triple
`(f_sample, f_mu, f_var)` and raises no exception, with `f_mu`, `f_var`
computed by `mix_latent_gp` from `W` and the latent moments (with the
covariance flags), so that `f_mu[n, p] = Σ_l g_mu[n, l] * W[p, l]`
(that is, `g_mu @ Wᵗ`) and
`f_var[n, p] = Σ_l W[p, l]^2 * g_var[n, l]`. -/
theorem sample_conditional_returns_mixed_moments
    (reg : CondRegistry) (fullImpl : FullMvnImpl) (eps : Eps)
    (Xnew feat : Arg) (kern : Kern) (f : Arg) (q_sqrt : Option Arg)
    (white : Bool) (num_samples : Option Nat) (impl : CondImpl) (N L P : Nat)
    (himpl : dispatch reg sepIndCondPattern = some impl)
    (hg : hasShape2 (impl Xnew feat kern f white q_sqrt).1 N L = true)
    (hv : hasShape2 (impl Xnew feat kern f white q_sqrt).2 N L = true)
    (hW : hasShape2 kern.W P L = true) :
    ∃ F,
      _sample_conditional reg fullImpl eps Xnew feat kern f false false q_sqrt
          white num_samples
        = Except.ok
          (F,
          (mix_latent_gp kern.W (impl Xnew feat kern f white q_sqrt).1
            (impl Xnew feat kern f white q_sqrt).2 false false).1,
          (mix_latent_gp kern.W (impl Xnew feat kern f white q_sqrt).1
            (impl Xnew feat kern f white q_sqrt).2 false false).2)
      ∧ contractedEntries
          (mix_latent_gp kern.W (impl Xnew feat kern f white q_sqrt).1
            (impl Xnew feat kern f white q_sqrt).2 false false).1
          (impl Xnew feat kern f white q_sqrt).1 kern.W N P L
      ∧ ∀ n, n < N → ∀ p, p < P →
          entry2 (mix_latent_gp kern.W (impl Xnew feat kern f white q_sqrt).1
            (impl Xnew feat kern f white q_sqrt).2 false false).2 n p
            = ∑ l ∈ Finset.range L,
                entry2 kern.W p l * entry2 kern.W p l
                  * entry2 (impl Xnew feat kern f white q_sqrt).2 n l := by
  refine ⟨_,
    happy_unfold reg fullImpl eps Xnew feat kern f q_sqrt white num_samples
      impl himpl,
    contractedEntries_contractW _ kern.W N P L hg hW, ?_⟩
  intro n hn p hp
  exact mixVar_entry kern.W _ _ false false N P L n p hv hW hn hp

/-- Witness for C6 at a concrete registry and call. -/
theorem sample_conditional_returns_mixed_moments_witness :
    dispatch reg0 sepIndCondPattern = some impl0
    ∧ hasShape2 (impl0 Xnew0 feat0 kern1 f0 false none).1 3 2 = true
    ∧ hasShape2 (impl0 Xnew0 feat0 kern1 f0 false none).2 3 2 = true
    ∧ hasShape2 kern1.W 3 2 = true
    ∧ ∃ F,
        _sample_conditional reg0 fullImpl0 eps0 Xnew0 feat0 kern1 f0 false
            false none false none
          = Except.ok
            (F,
            (mix_latent_gp kern1.W (impl0 Xnew0 feat0 kern1 f0 false none).1
              (impl0 Xnew0 feat0 kern1 f0 false none).2 false false).1,
            (mix_latent_gp kern1.W (impl0 Xnew0 feat0 kern1 f0 false none).1
              (impl0 Xnew0 feat0 kern1 f0 false none).2 false false).2)
        ∧ contractedEntries
            (mix_latent_gp kern1.W (impl0 Xnew0 feat0 kern1 f0 false none).1
              (impl0 Xnew0 feat0 kern1 f0 false none).2 false false).1
            (impl0 Xnew0 feat0 kern1 f0 false none).1 kern1.W 3 3 2
        ∧ ∀ n, n < 3 → ∀ p, p < 3 →
            entry2 (mix_latent_gp kern1.W (impl0 Xnew0 feat0 kern1 f0 false none).1
              (impl0 Xnew0 feat0 kern1 f0 false none).2 false false).2 n p
              = ∑ l ∈ Finset.range 2,
                  entry2 kern1.W p l * entry2 kern1.W p l
                    * entry2 (impl0 Xnew0 feat0 kern1 f0 false none).2 n l :=
  ⟨rfl, rfl, rfl, rfl,
    sample_conditional_returns_mixed_moments reg0 fullImpl0 eps0 Xnew0 feat0
      kern1 f0 none false none impl0 3 2 3 rfl rfl rfl rfl⟩

theorem exists_pair_of_len2 (row : List ℚ) (h : row.length = 2) :
    ∃ a b, row = [a, b] := by
  cases row with
  | nil => simp only [List.length_nil] at h; omega
  | cons a rest =>
    cases rest with
    | nil => simp only [List.length_cons, List.length_nil] at h; omega
    | cons b rest2 =>
      cases rest2 with
      | nil => exact ⟨a, b, rfl⟩
      | cons c rest3 => simp only [List.length_cons] at h; omega

theorem contractW_id (t : Tensor2) (h : ∀ row ∈ t, row.length = 2) :
    contractW t [[1, 0], [0, 1]] = t := by
  induction t with
  | nil => rfl
  | cons row rows ih =>
    obtain ⟨a, b, rfl⟩ :=
      exists_pair_of_len2 row (h row (List.mem_cons_self row rows))
    have hrest : ∀ r ∈ rows, r.length = 2 := fun r hr =>
      h r (List.mem_cons_of_mem _ hr)
    have h1 : dot [a, b] [1, 0] = a := by simp [dot]
    have h2 : dot [a, b] [0, 1] = b := by simp [dot]
    calc contractW ([a, b] :: rows) [[1, 0], [0, 1]]
        = [dot [a, b] [1, 0], dot [a, b] [0, 1]]
            :: contractW rows [[1, 0], [0, 1]] := rfl
      _ = [a, b] :: rows := by rw [h1, h2, ih hrest]

theorem mixVar_id_aux (t : Tensor2) (h : ∀ row ∈ t, row.length = 2) :
    t.map (fun vrow => [[(1 : ℚ), 0], [0, 1]].map fun wrow =>
      dot (wrow.map fun w => w * w) vrow) = t := by
  induction t with
  | nil => rfl
  | cons row rows ih =>
    obtain ⟨a, b, rfl⟩ :=
      exists_pair_of_len2 row (h row (List.mem_cons_self row rows))
    have hrest : ∀ r ∈ rows, r.length = 2 := fun r hr =>
      h r (List.mem_cons_of_mem _ hr)
    have h1 : dot ([(1 : ℚ), 0].map fun w => w * w) [a, b] = a := by
      simp [dot]
    have h2 : dot ([(0 : ℚ), 1].map fun w => w * w) [a, b] = b := by
      simp [dot]
    calc ([a, b] :: rows).map (fun vrow => [[(1 : ℚ), 0], [0, 1]].map fun wrow =>
          dot (wrow.map fun w => w * w) vrow)
        = [dot ([(1 : ℚ), 0].map fun w => w * w) [a, b],
            dot ([(0 : ℚ), 1].map fun w => w * w) [a, b]]
            :: rows.map (fun vrow => [[(1 : ℚ), 0], [0, 1]].map fun wrow =>
              dot (wrow.map fun w => w * w) vrow) := rfl
      _ = [a, b] :: rows := by rw [h1, h2, ih hrest]

theorem mixVar_id (mu t : Tensor2) (fc foc : Bool)
    (h : ∀ row ∈ t, row.length = 2) :
    (mix_latent_gp [[1, 0], [0, 1]] mu t fc foc).2 = t :=
  mixVar_id_aux t h

/-- Claim C7: when the kernel's mixing matrix is the `2 × 2` identity,
mixing is a no-op: the happy-path result is exactly
`(g_sample, g_mu, g_var)`. -/
theorem sample_conditional_identity_mixing_noop
    (reg : CondRegistry) (fullImpl : FullMvnImpl) (eps : Eps)
    (Xnew feat : Arg) (kern : Kern) (f : Arg) (q_sqrt : Option Arg)
    (white : Bool) (num_samples : Option Nat) (impl : CondImpl) (N : Nat)
    (himpl : dispatch reg sepIndCondPattern = some impl)
    (hkW : kern.W = [[1, 0], [0, 1]])
    (hg : hasShape2 (impl Xnew feat kern f white q_sqrt).1 N 2 = true)
    (hv : hasShape2 (impl Xnew feat kern f white q_sqrt).2 N 2 = true) :
    _sample_conditional reg fullImpl eps Xnew feat kern f false false q_sqrt
        white num_samples
      = Except.ok
        (sample_mvn fullImpl (impl Xnew feat kern f white q_sqrt).1
          (impl Xnew feat kern f white q_sqrt).2 CovTag.diag num_samples eps,
        (impl Xnew feat kern f white q_sqrt).1,
        (impl Xnew feat kern f white q_sqrt).2) := by
  rw [happy_unfold reg fullImpl eps Xnew feat kern f q_sqrt white num_samples
    impl himpl, hkW]
  rw [hasShape2_iff] at hg hv
  have e1 : tensordot_last
      (sample_mvn fullImpl (impl Xnew feat kern f white q_sqrt).1
        (impl Xnew feat kern f white q_sqrt).2 CovTag.diag num_samples eps)
      [[1, 0], [0, 1]]
      = sample_mvn fullImpl (impl Xnew feat kern f white q_sqrt).1
        (impl Xnew feat kern f white q_sqrt).2 CovTag.diag num_samples eps := by
    have hrowsD : ∀ s, ∀ row ∈ diagDraw (impl Xnew feat kern f white q_sqrt).1
        (impl Xnew feat kern f white q_sqrt).2 (eps s), row.length = 2 := by
      intro s row hr
      have hd := diagDraw_shape (impl Xnew feat kern f white q_sqrt).1
        (impl Xnew feat kern f white q_sqrt).2 (eps s) N 2
        (by rw [hasShape2_iff]; exact hg)
      exact ((hasShape2_iff _ _ _).1 hd).2 row hr
    cases num_samples with
    | none => exact congrArg SampleT.noS (contractW_id _ (hrowsD 0))
    | some S =>
      refine congrArg SampleT.withS ?_
      rw [List.map_map]
      exact List.map_congr_left fun s hs => contractW_id _ (hrowsD s)
  have e2 : (mix_latent_gp [[1, 0], [0, 1]]
      (impl Xnew feat kern f white q_sqrt).1
      (impl Xnew feat kern f white q_sqrt).2 false false).1
      = (impl Xnew feat kern f white q_sqrt).1 :=
    contractW_id _ hg.2
  have e3 : (mix_latent_gp [[1, 0], [0, 1]]
      (impl Xnew feat kern f white q_sqrt).1
      (impl Xnew feat kern f white q_sqrt).2 false false).2
      = (impl Xnew feat kern f white q_sqrt).2 :=
    mixVar_id _ _ false false hv.2
  rw [e1, e2, e3]

/-- Witness for C7 at a concrete registry, the identity kernel and two
requested samples. -/
theorem sample_conditional_identity_mixing_noop_witness :
    dispatch reg0 sepIndCondPattern = some impl0
    ∧ kern0.W = [[1, 0], [0, 1]]
    ∧ hasShape2 (impl0 Xnew0 feat0 kern0 f0 false none).1 3 2 = true
    ∧ hasShape2 (impl0 Xnew0 feat0 kern0 f0 false none).2 3 2 = true
    ∧ _sample_conditional reg0 fullImpl0 eps0 Xnew0 feat0 kern0 f0 false false
        none false (some 2)
      = Except.ok
        (sample_mvn fullImpl0 (impl0 Xnew0 feat0 kern0 f0 false none).1
          (impl0 Xnew0 feat0 kern0 f0 false none).2 CovTag.diag (some 2) eps0,
        (impl0 Xnew0 feat0 kern0 f0 false none).1,
        (impl0 Xnew0 feat0 kern0 f0 false none).2) :=
  ⟨rfl, rfl, rfl, rfl,
    sample_conditional_identity_mixing_noop reg0 fullImpl0 eps0 Xnew0 feat0
      kern0 f0 none false (some 2) impl0 3 rfl rfl rfl rfl⟩

end GPflowSpec
